import Mathlib

/-!
Verification of the Minesweeper knowledge-base inference engine
(`minesweeper.py`): the `Sentence` constraint representation and the
`MinesweeperAI` engine with its saturation and subset-resolution loops.

Python integers are modelled as `ℤ`, board cells as pairs of integers,
Python `set`s as `Finset`, and the `knowledge` list as a Lean `List`.
All definitions are executable, so concrete scenarios evaluate by `decide`.
-/

set_option autoImplicit false

/-- A board cell `(row, col)`, as in the Python tuples. -/
abbrev Cell := ℤ × ℤ

/-- Model of `class Sentence`: a set of board cells together with the count of those
cells that are mines.  Equality in Python (`__eq__`) is structural on the
pair (cells, count), which is exactly structure equality here. -/
@[ext]
structure Sentence where
  cells : Finset Cell
  count : ℤ
deriving DecidableEq

/-- Source `Sentence.known_mines`: the full cell set when `count == len(cells)`,
otherwise empty. -/
def Sentence.known_mines (s : Sentence) : Finset Cell :=
  if s.count = (s.cells.card : ℤ) then s.cells else ∅

/-- Source `Sentence.known_safes`: the full cell set when `count == 0`,
otherwise empty. -/
def Sentence.known_safes (s : Sentence) : Finset Cell :=
  if s.count = 0 then s.cells else ∅

/-- Source `Sentence.mark_mine`: if the cell is present, discard it and decrement
the count; otherwise leave the sentence unchanged. -/
def Sentence.mark_mine (s : Sentence) (cell : Cell) : Sentence :=
  if cell ∈ s.cells then ⟨s.cells.erase cell, s.count - 1⟩ else s

/-- Source `Sentence.mark_safe`: if the cell is present, discard it; the count is
unchanged. -/
def Sentence.mark_safe (s : Sentence) (cell : Cell) : Sentence :=
  if cell ∈ s.cells then ⟨s.cells.erase cell, s.count⟩ else s

/-- Model of `class MinesweeperAI`: the engine state.  Fields in source order. -/
@[ext]
structure MinesweeperAI where
  height : ℤ
  width : ℤ
  moves_made : Finset Cell
  mines : Finset Cell
  safes : Finset Cell
  knowledge : List Sentence
deriving DecidableEq

/-- Source `MinesweeperAI.__init__`: fresh engine for a board of the given size. -/
def MinesweeperAI.init (height width : ℤ) : MinesweeperAI :=
  ⟨height, width, ∅, ∅, ∅, []⟩

/-- Engine-level `mark_mine`: add the cell to `mines` and propagate
`Sentence.mark_mine` into every sentence of `knowledge`. -/
def MinesweeperAI.mark_mine (st : MinesweeperAI) (cell : Cell) : MinesweeperAI :=
  { st with
    mines := insert cell st.mines
    knowledge := st.knowledge.map (fun s => s.mark_mine cell) }

/-- Engine-level `mark_safe`: add the cell to `safes` and propagate
`Sentence.mark_safe` into every sentence of `knowledge`. -/
def MinesweeperAI.mark_safe (st : MinesweeperAI) (cell : Cell) : MinesweeperAI :=
  { st with
    safes := insert cell st.safes
    knowledge := st.knowledge.map (fun s => s.mark_safe cell) }

/-- Marking a whole set of cells safe at once: the combined effect of
iterating the engine-level `mark_safe` over each element of the set, in any
order (`markSafe_foldl_eq_markSafeSet` below proves this equivalence).
Used to model the `for safe in safes: self.mark_safe(safe)` loop of
`update_knowledge_base`. -/
def MinesweeperAI.markSafeSet (st : MinesweeperAI) (S : Finset Cell) : MinesweeperAI :=
  { st with
    safes := st.safes ∪ S
    knowledge := st.knowledge.map (fun s => ⟨s.cells \ S, s.count⟩) }

/-- Marking a whole set of cells as mines at once: the combined effect of
iterating the engine-level `mark_mine` over each element of the set, in any
order (`markMine_foldl_eq_markMineSet` below proves this equivalence).
Used to model the `for mine in mines: self.mark_mine(mine)` loop of
`update_knowledge_base`. -/
def MinesweeperAI.markMineSet (st : MinesweeperAI) (S : Finset Cell) : MinesweeperAI :=
  { st with
    mines := st.mines ∪ S
    knowledge := st.knowledge.map
      (fun s => ⟨s.cells \ S, s.count - ((s.cells ∩ S).card : ℤ)⟩) }

/-- Total number of (sentence, cell) memberships across `knowledge`: the
termination measure of the `while changes` loop of
`update_knowledge_base`. -/
def MinesweeperAI.totalCells (st : MinesweeperAI) : ℕ :=
  (st.knowledge.map (fun s => s.cells.card)).sum

/-- One step of a single pass of the `while changes` loop of
`update_knowledge_base`: visit the sentence at index `i` (on the current,
possibly already mutated state), read off its `known_safes` and
`known_mines`, and if either is non-empty set the `changes` flag and mark
every cell of it via the global `mark_safe` / `mark_mine` (modelled by the
equivalent batch operations).  `fuel` counts the remaining indices: the
pass is started with `fuel = st.knowledge.length`, which the marking
operations never change. -/
def satPassAux : MinesweeperAI → Bool → ℕ → ℕ → MinesweeperAI × Bool
  | st, changed, _, 0 => (st, changed)
  | st, changed, i, fuel + 1 =>
    match st.knowledge.get? i with
    | none => satPassAux st changed (i + 1) fuel
    | some s =>
      let sf := s.known_safes
      let mn := s.known_mines
      let stA := if sf = ∅ then st else st.markSafeSet sf
      let chA := if sf = ∅ then changed else true
      let stB := if mn = ∅ then stA else stA.markMineSet mn
      let chB := if mn = ∅ then chA else true
      satPassAux stB chB (i + 1) fuel

/-- One full pass over `knowledge` (the body of the `while changes` loop),
returning the updated state and whether any change was reported. -/
def satPass (st : MinesweeperAI) : MinesweeperAI × Bool :=
  satPassAux st false 0 st.knowledge.length

/-- The `while changes` loop, run with explicit fuel.  Each pass that
reports a change strictly decreases `totalCells`, so fuel
`st.totalCells + 1` always reaches the pass that reports no change
(theorem `C10_saturation_terminates`); the loop therefore never stops
early and is a faithful model of the unbounded Python loop. -/
def satLoop : MinesweeperAI → ℕ → MinesweeperAI
  | st, 0 => st
  | st, fuel + 1 =>
    let p := satPass st
    if p.2 then satLoop p.1 fuel else p.1

/-- Source `MinesweeperAI.update_knowledge_base`: run the saturation loop to a
fixed point, then remove the sentences whose cell set became empty. -/
def MinesweeperAI.update_knowledge_base (st : MinesweeperAI) : MinesweeperAI :=
  let st1 := satLoop st (st.totalCells + 1)
  { st1 with knowledge := st1.knowledge.filter (fun s => s.cells ≠ ∅) }

/-- One step of the inner loop of `infer_new_sentences`: for the ordered
pair `(s1, s2)` of sentences of `kb`, if they are distinct (structural
inequality, Python `!=`) and `s1.cells ⊆ s2.cells`, stage the inferred
sentence unless an equal one is already in `kb` or already staged. -/
def inferStep (kb : List Sentence) (s1 s2 : Sentence) (inf : List Sentence) : List Sentence :=
  if s1 ≠ s2 ∧ s1.cells ⊆ s2.cells then
    if (⟨s2.cells \ s1.cells, s2.count - s1.count⟩ : Sentence) ∉ kb ∧
        (⟨s2.cells \ s1.cells, s2.count - s1.count⟩ : Sentence) ∉ inf then
      inf ++ [⟨s2.cells \ s1.cells, s2.count - s1.count⟩]
    else inf
  else inf

/-- The `inferred` list built by the double loop of
`infer_new_sentences`. -/
def inferredSentences (kb : List Sentence) : List Sentence :=
  kb.foldl (fun inf s1 => kb.foldl (fun inf s2 => inferStep kb s1 s2 inf) inf) []

/-- Source `MinesweeperAI.infer_new_sentences`: extend `knowledge` with all
sentences inferred by subset resolution. -/
def MinesweeperAI.infer_new_sentences (st : MinesweeperAI) : MinesweeperAI :=
  { st with knowledge := st.knowledge ++ inferredSentences st.knowledge }

/-- The eight neighbour candidates of a cell, in source order. -/
def neighborCandidates (cell : Cell) : List Cell :=
  [(cell.1 - 1, cell.2), (cell.1 + 1, cell.2), (cell.1, cell.2 - 1),
   (cell.1, cell.2 + 1), (cell.1 - 1, cell.2 - 1), (cell.1 - 1, cell.2 + 1),
   (cell.1 + 1, cell.2 - 1), (cell.1 + 1, cell.2 + 1)]

/-- Source `MinesweeperAI.find_cell_neighbors`: the in-bounds neighbour candidates
not already in `moves_made`. -/
def MinesweeperAI.find_cell_neighbors (st : MinesweeperAI) (cell : Cell) : List Cell :=
  (neighborCandidates cell).filter
    (fun p => p ∉ st.moves_made ∧ 0 ≤ p.1 ∧ p.1 < st.height ∧ 0 ≤ p.2 ∧ p.2 < st.width)

/-- Source `MinesweeperAI.add_knowledge` (the spec's `observe`): record the move,
mark the cell safe, append the new sentence over the cell's unseen
neighbours, saturate the knowledge base, then infer new sentences. -/
def MinesweeperAI.add_knowledge (st : MinesweeperAI) (cell : Cell) (count : ℤ) :
    MinesweeperAI :=
  let st1 := { st with moves_made := insert cell st.moves_made }
  let st2 := st1.mark_safe cell
  let nbrs := st2.find_cell_neighbors cell
  let st3 := { st2 with knowledge := st2.knowledge ++ [(⟨nbrs.toFinset, count⟩ : Sentence)] }
  let st4 := st3.update_knowledge_base
  st4.infer_new_sentences

/-- A fixed linear enumeration order on cells (row-major).  Python
iterates its `set`s in an arbitrary, non-semantic order; this order stands
in for it when a set must be turned into a list. -/
def cellLe (a b : Cell) : Prop :=
  a.1 < b.1 ∨ (a.1 = b.1 ∧ a.2 ≤ b.2)

instance : DecidableRel cellLe := fun a b =>
  inferInstanceAs (Decidable (a.1 < b.1 ∨ (a.1 = b.1 ∧ a.2 ≤ b.2)))

instance : IsTrans Cell cellLe :=
  ⟨by intro a b c hab hbc; unfold cellLe at *; omega⟩

instance : IsAntisymm Cell cellLe :=
  ⟨by
    intro a b hab hba
    unfold cellLe at *
    have h1 : a.1 = b.1 := by omega
    have h2 : a.2 = b.2 := by omega
    exact Prod.ext h1 h2⟩

instance : IsTotal Cell cellLe :=
  ⟨by intro a b; unfold cellLe; omega⟩

/-- Source `MinesweeperAI.make_safe_move`: build the list of known-safe cells not
yet played and pick one of them (`random.choice` is modelled by the `seed`
index into the candidate list); `None` when the list is empty.  The Python
method reads but never writes the engine, so the returned state is the
input state. -/
def MinesweeperAI.safeCandidates (st : MinesweeperAI) : List Cell :=
  (st.safes.sort cellLe).filter (fun c => c ∉ st.moves_made)

def MinesweeperAI.make_safe_move (st : MinesweeperAI) (seed : ℕ) :
    Option Cell × MinesweeperAI :=
  (match st.safeCandidates with
   | [] => none
   | c :: rest =>
     some ((c :: rest).get ⟨seed % (c :: rest).length, Nat.mod_lt _ (Nat.succ_pos _)⟩),
   st)

/-- The row-major list of all board cells, as enumerated by the
comprehension `for row in range(height) for col in range(width)`. -/
def gridCells (h w : ℤ) : List Cell :=
  (List.range h.toNat).flatMap
    (fun (r : ℕ) => (List.range w.toNat).map (fun (c : ℕ) => ((r : ℤ), (c : ℤ))))

/-- Source `MinesweeperAI.make_random_move`: pick a board cell that is neither
played nor a known mine (`random.choice` modelled by `seed`); `None` when
no candidate exists.  Read-only, like `make_safe_move`. -/
def MinesweeperAI.randomCandidates (st : MinesweeperAI) : List Cell :=
  (gridCells st.height st.width).filter (fun p => p ∉ st.moves_made ∧ p ∉ st.mines)

def MinesweeperAI.make_random_move (st : MinesweeperAI) (seed : ℕ) :
    Option Cell × MinesweeperAI :=
  (match st.randomCandidates with
   | [] => none
   | c :: rest =>
     some ((c :: rest).get ⟨seed % (c :: rest).length, Nat.mod_lt _ (Nat.succ_pos _)⟩),
   st)

/-- Run a sequence of observations through `add_knowledge`. -/
def runAI (st : MinesweeperAI) : List (Cell × ℤ) → MinesweeperAI
  | [] => st
  | (c, n) :: rest => runAI (st.add_knowledge c n) rest

/-- The in-bounds neighbour cells of `cell`, with no `moves_made`
filtering: the scope over which the external world counts mines. -/
def inBoundsNbrs (h w : ℤ) (cell : Cell) : Finset Cell :=
  ((neighborCandidates cell).filter
    (fun p => 0 ≤ p.1 ∧ p.1 < h ∧ 0 ≤ p.2 ∧ p.2 < w)).toFinset

/-- A sentence is true of the mine assignment `M` when its count equals the
number of its cells that lie in `M`. -/
def SentTrue (M : Finset Cell) (s : Sentence) : Prop :=
  s.count = ((s.cells ∩ M).card : ℤ)

/-- Soundness of an engine state with respect to a mine assignment `M`:
every known mine is in `M`, no known safe or played cell is in `M`, and
every sentence of `knowledge` is true of `M`. -/
def Sound (M : Finset Cell) (st : MinesweeperAI) : Prop :=
  st.mines ⊆ M ∧ (∀ c ∈ st.safes, c ∉ M) ∧ (∀ c ∈ st.moves_made, c ∉ M) ∧
    ∀ s ∈ st.knowledge, SentTrue M s

/-- An observation sequence is consistent with the mine assignment `M`
when, along the run, each observed cell is not a mine and each reported
count is the number of in-bounds neighbours of the cell that are in `M` —
i.e. the observations are the truthful answers of a fixed board. -/
def ConsSeq (M : Finset Cell) : MinesweeperAI → List (Cell × ℤ) → Prop
  | _, [] => True
  | st, (c, n) :: rest =>
      c ∉ M ∧ n = ((inBoundsNbrs st.height st.width c ∩ M).card : ℤ) ∧
        ConsSeq M (st.add_knowledge c n) rest

/- ### Helper lemmas -/

theorem Sentence.mark_safe_eq_sdiff (s : Sentence) (c : Cell) :
    s.mark_safe c = ⟨s.cells \ {c}, s.count⟩ := by
  unfold Sentence.mark_safe
  by_cases h : c ∈ s.cells
  · simp [h, Finset.sdiff_singleton_eq_erase]
  · simp [h, Finset.sdiff_singleton_eq_erase, Finset.erase_eq_of_not_mem]

theorem Sentence.mark_mine_eq_sdiff (s : Sentence) (c : Cell) :
    s.mark_mine c = ⟨s.cells \ {c}, s.count - ((s.cells ∩ {c}).card : ℤ)⟩ := by
  unfold Sentence.mark_mine
  by_cases h : c ∈ s.cells
  · simp [h, Finset.sdiff_singleton_eq_erase, Finset.inter_singleton_of_mem]
  · simp [h, Finset.sdiff_singleton_eq_erase, Finset.erase_eq_of_not_mem,
      Finset.inter_singleton_of_not_mem]

theorem MinesweeperAI.markSafeSet_empty (st : MinesweeperAI) :
    st.markSafeSet ∅ = st := by
  apply MinesweeperAI.ext <;>
    simp only [MinesweeperAI.markSafeSet, Finset.union_empty]
  have : ∀ s : Sentence, (⟨s.cells \ ∅, s.count⟩ : Sentence) = s := fun s => by
    rw [Finset.sdiff_empty]
  rw [List.map_congr_left (fun s _ => this s)]
  simp

theorem MinesweeperAI.markMineSet_empty (st : MinesweeperAI) :
    st.markMineSet ∅ = st := by
  apply MinesweeperAI.ext <;>
    simp only [MinesweeperAI.markMineSet, Finset.union_empty]
  have : ∀ s : Sentence, (⟨s.cells \ ∅, s.count - ((s.cells ∩ ∅).card : ℤ)⟩ : Sentence) = s :=
    fun s => by
      apply Sentence.ext
      · rw [Finset.sdiff_empty]
      · simp
  rw [List.map_congr_left (fun s _ => this s)]
  simp

theorem MinesweeperAI.markSafeSet_markSafeSet (st : MinesweeperAI) (S T : Finset Cell) :
    (st.markSafeSet S).markSafeSet T = st.markSafeSet (S ∪ T) := by
  apply MinesweeperAI.ext <;>
    simp only [MinesweeperAI.markSafeSet, List.map_map, Finset.union_assoc]
  refine List.map_congr_left fun s _ => ?_
  apply Sentence.ext
  · show (s.cells \ S) \ T = s.cells \ (S ∪ T)
    ext x
    simp only [Finset.mem_sdiff, Finset.mem_union]
    tauto
  · rfl

theorem MinesweeperAI.markMineSet_markMineSet (st : MinesweeperAI) (S T : Finset Cell) :
    (st.markMineSet S).markMineSet T = st.markMineSet (S ∪ T) := by
  apply MinesweeperAI.ext <;>
    simp only [MinesweeperAI.markMineSet, List.map_map, Finset.union_assoc]
  refine List.map_congr_left fun s _ => ?_
  have hcells : (s.cells \ S) \ T = s.cells \ (S ∪ T) := by
    ext x
    simp only [Finset.mem_sdiff, Finset.mem_union]
    tauto
  have hsplit : s.cells ∩ (S ∪ T) = (s.cells ∩ S) ∪ ((s.cells \ S) ∩ T) := by
    ext x
    simp only [Finset.mem_inter, Finset.mem_union, Finset.mem_sdiff]
    tauto
  have hdisj : Disjoint (s.cells ∩ S) ((s.cells \ S) ∩ T) := by
    rw [Finset.disjoint_left]
    intro x hx hx2
    simp only [Finset.mem_inter, Finset.mem_sdiff] at hx hx2
    exact hx2.1.2 hx.2
  have hcard : ((s.cells ∩ (S ∪ T)).card : ℤ) =
      ((s.cells ∩ S).card : ℤ) + (((s.cells \ S) ∩ T).card : ℤ) := by
    rw [hsplit, Finset.card_union_of_disjoint hdisj]
    push_cast
    ring
  apply Sentence.ext
  · exact hcells
  · show s.count - ((s.cells ∩ S).card : ℤ) - (((s.cells \ S) ∩ T).card : ℤ) =
      s.count - ((s.cells ∩ (S ∪ T)).card : ℤ)
    rw [hcard]
    ring

theorem MinesweeperAI.mark_safe_eq_markSafeSet (st : MinesweeperAI) (c : Cell) :
    st.mark_safe c = st.markSafeSet {c} := by
  apply MinesweeperAI.ext <;>
    simp only [MinesweeperAI.mark_safe, MinesweeperAI.markSafeSet]
  · rw [Finset.union_comm]
    rfl
  · exact List.map_congr_left fun s _ => Sentence.mark_safe_eq_sdiff s c

theorem MinesweeperAI.mark_mine_eq_markMineSet (st : MinesweeperAI) (c : Cell) :
    st.mark_mine c = st.markMineSet {c} := by
  apply MinesweeperAI.ext <;>
    simp only [MinesweeperAI.mark_mine, MinesweeperAI.markMineSet]
  · rw [Finset.union_comm]
    rfl
  · exact List.map_congr_left fun s _ => Sentence.mark_mine_eq_sdiff s c

/-- Folding the engine-level `mark_safe` over any list of cells equals the
batch `markSafeSet` of the list's set of cells: the order in which Python
iterates a set of newly known safes is irrelevant. -/
theorem markSafe_foldl_eq_markSafeSet (st : MinesweeperAI) (l : List Cell) :
    l.foldl MinesweeperAI.mark_safe st = st.markSafeSet l.toFinset := by
  induction l generalizing st with
  | nil => simp [MinesweeperAI.markSafeSet_empty]
  | cons c l ih =>
    simp only [List.foldl_cons, List.toFinset_cons]
    have hins : ({c} : Finset Cell) ∪ l.toFinset = insert c l.toFinset := by
      ext x
      simp
    rw [ih, MinesweeperAI.mark_safe_eq_markSafeSet,
      MinesweeperAI.markSafeSet_markSafeSet, hins]

/-- Folding the engine-level `mark_mine` over any list of cells equals the
batch `markMineSet` of the list's set of cells. -/
theorem markMine_foldl_eq_markMineSet (st : MinesweeperAI) (l : List Cell) :
    l.foldl MinesweeperAI.mark_mine st = st.markMineSet l.toFinset := by
  induction l generalizing st with
  | nil => simp [MinesweeperAI.markMineSet_empty]
  | cons c l ih =>
    simp only [List.foldl_cons, List.toFinset_cons]
    have hins : ({c} : Finset Cell) ∪ l.toFinset = insert c l.toFinset := by
      ext x
      simp
    rw [ih, MinesweeperAI.mark_mine_eq_markMineSet,
      MinesweeperAI.markMineSet_markMineSet, hins]

/- ### Saturation-termination lemmas -/

theorem Sentence.known_safes_subset (s : Sentence) : s.known_safes ⊆ s.cells := by
  unfold Sentence.known_safes
  split
  · exact Finset.Subset.refl _
  · exact Finset.empty_subset _

theorem Sentence.known_mines_subset (s : Sentence) : s.known_mines ⊆ s.cells := by
  unfold Sentence.known_mines
  split
  · exact Finset.Subset.refl _
  · exact Finset.empty_subset _

theorem sum_card_map_le (l : List Sentence) (f : Sentence → Sentence)
    (hf : ∀ s, (f s).cells ⊆ s.cells) :
    ((l.map f).map (fun s => s.cells.card)).sum ≤ (l.map (fun s => s.cells.card)).sum := by
  induction l with
  | nil => simp
  | cons a l ih =>
    simp only [List.map_cons, List.sum_cons]
    exact Nat.add_le_add (Finset.card_le_card (hf a)) ih

theorem sum_card_map_lt (l : List Sentence) (f : Sentence → Sentence)
    (hf : ∀ s, (f s).cells ⊆ s.cells) (t : Sentence) (ht : t ∈ l)
    (hlt : (f t).cells ⊂ t.cells) :
    ((l.map f).map (fun s => s.cells.card)).sum < (l.map (fun s => s.cells.card)).sum := by
  induction l with
  | nil => cases ht
  | cons a l ih =>
    simp only [List.map_cons, List.sum_cons]
    rcases List.mem_cons.mp ht with h | h
    · subst h
      exact Nat.add_lt_add_of_lt_of_le (Finset.card_lt_card hlt) (sum_card_map_le l f hf)
    · exact Nat.add_lt_add_of_le_of_lt (Finset.card_le_card (hf a)) (ih h)

theorem sdiff_ssubset_of_inter_nonempty {a S : Finset Cell} (h : (a ∩ S).Nonempty) :
    a \ S ⊂ a := by
  obtain ⟨x, hx⟩ := h
  rw [Finset.mem_inter] at hx
  refine (Finset.ssubset_iff_of_subset (Finset.sdiff_subset)).mpr ?_
  exact ⟨x, hx.1, fun hmem => (Finset.mem_sdiff.mp hmem).2 hx.2⟩

theorem totalCells_markSafeSet_le (st : MinesweeperAI) (S : Finset Cell) :
    (st.markSafeSet S).totalCells ≤ st.totalCells :=
  sum_card_map_le st.knowledge _ (fun _ => Finset.sdiff_subset)

theorem totalCells_markMineSet_le (st : MinesweeperAI) (S : Finset Cell) :
    (st.markMineSet S).totalCells ≤ st.totalCells :=
  sum_card_map_le st.knowledge _ (fun _ => Finset.sdiff_subset)

theorem totalCells_markSafeSet_lt (st : MinesweeperAI) (S : Finset Cell) (t : Sentence)
    (ht : t ∈ st.knowledge) (h : (t.cells ∩ S).Nonempty) :
    (st.markSafeSet S).totalCells < st.totalCells :=
  sum_card_map_lt st.knowledge _ (fun _ => Finset.sdiff_subset) t ht
    (sdiff_ssubset_of_inter_nonempty h)

theorem totalCells_markMineSet_lt (st : MinesweeperAI) (S : Finset Cell) (t : Sentence)
    (ht : t ∈ st.knowledge) (h : (t.cells ∩ S).Nonempty) :
    (st.markMineSet S).totalCells < st.totalCells :=
  sum_card_map_lt st.knowledge _ (fun _ => Finset.sdiff_subset) t ht
    (sdiff_ssubset_of_inter_nonempty h)

theorem satPassAux_totalCells :
    ∀ (fuel : ℕ) (st : MinesweeperAI) (changed : Bool) (i : ℕ),
      (satPassAux st changed i fuel).1.totalCells ≤ st.totalCells ∧
      ((satPassAux st changed i fuel).2 = true →
        changed = true ∨ (satPassAux st changed i fuel).1.totalCells < st.totalCells) := by
  intro fuel
  induction fuel with
  | zero => exact fun st changed i => ⟨le_refl _, fun h => Or.inl h⟩
  | succ fuel ih =>
    intro st changed i
    rcases hget : st.knowledge.get? i with _ | s
    · simpa only [satPassAux, hget] using ih st changed (i + 1)
    · have hs : s ∈ st.knowledge := List.get?_mem hget
      by_cases hsf : s.known_safes = ∅ <;> by_cases hmn : s.known_mines = ∅ <;>
        simp only [satPassAux, hget, hsf, hmn, if_pos, if_neg, ite_true, ite_false,
          not_true_eq_false, not_false_eq_true]
      · exact ih st changed (i + 1)
      · -- safes empty, mines non-empty: strict decrease via the mine marks
        have hmnsub : s.known_mines ⊆ s.cells := Sentence.known_mines_subset s
        have hne : s.known_mines.Nonempty := Finset.nonempty_iff_ne_empty.mpr hmn
        obtain ⟨x, hx⟩ := hne
        have hinter : (s.cells ∩ s.known_mines).Nonempty :=
          ⟨x, Finset.mem_inter.mpr ⟨hmnsub hx, hx⟩⟩
        have hlt : (st.markMineSet s.known_mines).totalCells < st.totalCells :=
          totalCells_markMineSet_lt st _ s hs hinter
        refine ⟨le_trans (ih _ true (i + 1)).1 (le_of_lt hlt), fun _ => Or.inr ?_⟩
        exact lt_of_le_of_lt (ih _ true (i + 1)).1 hlt
      · -- safes non-empty, mines empty: strict decrease via the safe marks
        have hsfsub : s.known_safes ⊆ s.cells := Sentence.known_safes_subset s
        have hne : s.known_safes.Nonempty := Finset.nonempty_iff_ne_empty.mpr hsf
        obtain ⟨x, hx⟩ := hne
        have hinter : (s.cells ∩ s.known_safes).Nonempty :=
          ⟨x, Finset.mem_inter.mpr ⟨hsfsub hx, hx⟩⟩
        have hlt : (st.markSafeSet s.known_safes).totalCells < st.totalCells :=
          totalCells_markSafeSet_lt st _ s hs hinter
        refine ⟨le_trans (ih _ true (i + 1)).1 (le_of_lt hlt), fun _ => Or.inr ?_⟩
        exact lt_of_le_of_lt (ih _ true (i + 1)).1 hlt
      · -- both non-empty: strict decrease already from the safe marks
        have hsfsub : s.known_safes ⊆ s.cells := Sentence.known_safes_subset s
        have hne : s.known_safes.Nonempty := Finset.nonempty_iff_ne_empty.mpr hsf
        obtain ⟨x, hx⟩ := hne
        have hinter : (s.cells ∩ s.known_safes).Nonempty :=
          ⟨x, Finset.mem_inter.mpr ⟨hsfsub hx, hx⟩⟩
        have hlt : (st.markSafeSet s.known_safes).totalCells < st.totalCells :=
          totalCells_markSafeSet_lt st _ s hs hinter
        have hle2 : ((st.markSafeSet s.known_safes).markMineSet s.known_mines).totalCells ≤
            (st.markSafeSet s.known_safes).totalCells :=
          totalCells_markMineSet_le _ _
        refine ⟨le_trans (le_trans (ih _ true (i + 1)).1 hle2) (le_of_lt hlt),
          fun _ => Or.inr ?_⟩
        exact lt_of_le_of_lt (le_trans (ih _ true (i + 1)).1 hle2) hlt

theorem satPass_totalCells_lt (st : MinesweeperAI) (h : (satPass st).2 = true) :
    (satPass st).1.totalCells < st.totalCells := by
  rcases (satPassAux_totalCells st.knowledge.length st false 0).2 h with hc | hlt
  · cases hc
  · exact hlt

theorem satLoop_stable :
    ∀ (fuel k : ℕ) (st : MinesweeperAI), st.totalCells < fuel →
      satLoop st fuel = satLoop st (fuel + k) := by
  intro fuel
  induction fuel with
  | zero => intro k st h; cases Nat.not_lt_zero _ h
  | succ fuel ih =>
    intro k st h
    have hrw : fuel + 1 + k = (fuel + k) + 1 := by omega
    rw [hrw]
    show (let p := satPass st; if p.2 then satLoop p.1 fuel else p.1) =
      (let p := satPass st; if p.2 then satLoop p.1 (fuel + k) else p.1)
    rcases hp : (satPass st).2 with _ | _
    · simp [hp]
    · simp only [hp, if_true]
      have hlt : (satPass st).1.totalCells < fuel :=
        lt_of_lt_of_le (satPass_totalCells_lt st hp) (Nat.lt_succ_iff.mp h)
      exact ih k (satPass st).1 hlt

/- ### Subset-resolution lemmas -/

theorem inferStep_subset (kb : List Sentence) (s1 s2 : Sentence) (inf : List Sentence) :
    inf ⊆ inferStep kb s1 s2 inf := by
  unfold inferStep
  split
  · split
    · exact List.subset_append_left _ _
    · exact List.Subset.refl _
  · exact List.Subset.refl _

theorem foldl_inferStep_subset (kb : List Sentence) (s1 : Sentence) :
    ∀ (l inf : List Sentence), inf ⊆ l.foldl (fun acc s2 => inferStep kb s1 s2 acc) inf := by
  intro l
  induction l with
  | nil => intro inf; exact List.Subset.refl _
  | cons a l ih =>
    intro inf
    exact (inferStep_subset kb s1 a inf).trans (ih _)

theorem foldl_outer_subset (kb : List Sentence) :
    ∀ (l inf : List Sentence),
      inf ⊆ l.foldl (fun inf s1 => kb.foldl (fun inf s2 => inferStep kb s1 s2 inf) inf) inf := by
  intro l
  induction l with
  | nil => intro inf; exact List.Subset.refl _
  | cons a l ih =>
    intro inf
    exact (foldl_inferStep_subset kb a kb inf).trans (ih _)

theorem inferStep_mem (kb : List Sentence) (s1 s2 : Sentence) (inf : List Sentence)
    (hne : s1 ≠ s2) (hsub : s1.cells ⊆ s2.cells) :
    (⟨s2.cells \ s1.cells, s2.count - s1.count⟩ : Sentence) ∈ kb ∨
    (⟨s2.cells \ s1.cells, s2.count - s1.count⟩ : Sentence) ∈ inferStep kb s1 s2 inf := by
  unfold inferStep
  rw [if_pos ⟨hne, hsub⟩]
  by_cases hkb : (⟨s2.cells \ s1.cells, s2.count - s1.count⟩ : Sentence) ∈ kb
  · exact Or.inl hkb
  · by_cases hinf : (⟨s2.cells \ s1.cells, s2.count - s1.count⟩ : Sentence) ∈ inf
    · refine Or.inr ?_
      split
      · exact List.mem_append_left _ hinf
      · exact hinf
    · rw [if_pos ⟨hkb, hinf⟩]
      exact Or.inr (List.mem_append_right _ (List.mem_singleton_self _))

theorem foldl_inferStep_mem (kb : List Sentence) (s1 s2 : Sentence)
    (hne : s1 ≠ s2) (hsub : s1.cells ⊆ s2.cells) :
    ∀ (l inf : List Sentence), s2 ∈ l →
      (⟨s2.cells \ s1.cells, s2.count - s1.count⟩ : Sentence) ∈ kb ∨
      (⟨s2.cells \ s1.cells, s2.count - s1.count⟩ : Sentence) ∈
        l.foldl (fun acc t => inferStep kb s1 t acc) inf := by
  intro l
  induction l with
  | nil => intro inf h; cases h
  | cons a l ih =>
    intro inf h
    rcases List.mem_cons.mp h with h | h
    · subst h
      rcases inferStep_mem kb s1 s2 inf hne hsub with hk | hm
      · exact Or.inl hk
      · exact Or.inr (foldl_inferStep_subset kb s1 l _ hm)
    · exact ih _ h

theorem foldl_outer_mem (kb : List Sentence) (s1 s2 : Sentence)
    (hne : s1 ≠ s2) (hsub : s1.cells ⊆ s2.cells) (h2 : s2 ∈ kb) :
    ∀ (l inf : List Sentence), s1 ∈ l →
      (⟨s2.cells \ s1.cells, s2.count - s1.count⟩ : Sentence) ∈ kb ∨
      (⟨s2.cells \ s1.cells, s2.count - s1.count⟩ : Sentence) ∈
        l.foldl (fun inf t => kb.foldl (fun inf u => inferStep kb t u inf) inf) inf := by
  intro l
  induction l with
  | nil => intro inf h; cases h
  | cons a l ih =>
    intro inf h
    rcases List.mem_cons.mp h with h | h
    · subst h
      rcases foldl_inferStep_mem kb s1 s2 hne hsub kb inf h2 with hk | hm
      · exact Or.inl hk
      · exact Or.inr (foldl_outer_subset kb l _ hm)
    · exact ih _ h

theorem inferStep_inv (kb : List Sentence) (s1 s2 : Sentence) (inf : List Sentence)
    (h : inf.Nodup ∧ ∀ t ∈ inf, t ∉ kb) :
    (inferStep kb s1 s2 inf).Nodup ∧ ∀ t ∈ inferStep kb s1 s2 inf, t ∉ kb := by
  unfold inferStep
  split
  · split
    · next hcond =>
      constructor
      · rw [List.nodup_append]
        exact ⟨h.1, List.nodup_singleton _, by
          intro t ht ht2
          rw [List.mem_singleton] at ht2
          subst ht2
          exact hcond.2 ht⟩
      · intro t ht
        rcases List.mem_append.mp ht with ht | ht
        · exact h.2 t ht
        · rw [List.mem_singleton] at ht
          subst ht
          exact hcond.1
    · exact h
  · exact h

theorem foldl_inferStep_inv (kb : List Sentence) (s1 : Sentence) :
    ∀ (l inf : List Sentence), (inf.Nodup ∧ ∀ t ∈ inf, t ∉ kb) →
      ((l.foldl (fun acc s2 => inferStep kb s1 s2 acc) inf).Nodup ∧
        ∀ t ∈ l.foldl (fun acc s2 => inferStep kb s1 s2 acc) inf, t ∉ kb) := by
  intro l
  induction l with
  | nil => intro inf h; exact h
  | cons a l ih =>
    intro inf h
    exact ih _ (inferStep_inv kb s1 a inf h)

theorem foldl_outer_inv (kb : List Sentence) :
    ∀ (l inf : List Sentence), (inf.Nodup ∧ ∀ t ∈ inf, t ∉ kb) →
      ((l.foldl (fun inf s1 => kb.foldl (fun inf s2 => inferStep kb s1 s2 inf) inf) inf).Nodup ∧
        ∀ t ∈ l.foldl (fun inf s1 => kb.foldl (fun inf s2 => inferStep kb s1 s2 inf) inf) inf,
          t ∉ kb) := by
  intro l
  induction l with
  | nil => intro inf h; exact h
  | cons a l ih =>
    intro inf h
    exact ih _ (foldl_inferStep_inv kb a kb inf h)

theorem inferredSentences_inv (kb : List Sentence) :
    (inferredSentences kb).Nodup ∧ ∀ t ∈ inferredSentences kb, t ∉ kb :=
  foldl_outer_inv kb kb [] ⟨List.nodup_nil, by intro t ht; cases ht⟩

/- ### Claim theorems (first group) -/

/-- C2: `known_mines()` returns the full cell set exactly when the count
equals the number of cells, and `known_safes()` returns the full cell set
exactly when the count is zero; otherwise each returns the empty set. -/
theorem C2_known_mines_safes (s : Sentence) :
    (s.count = (s.cells.card : ℤ) → s.known_mines = s.cells) ∧
    (s.count ≠ (s.cells.card : ℤ) → s.known_mines = ∅) ∧
    (s.count = 0 → s.known_safes = s.cells) ∧
    (s.count ≠ 0 → s.known_safes = ∅) := by
  refine ⟨fun h => ?_, fun h => ?_, fun h => ?_, fun h => ?_⟩ <;>
    simp [Sentence.known_mines, Sentence.known_safes, h]

/-- Witness for C2 at the spec's concrete examples: cells
`{(0,0),(0,1),(0,2)}` with count `3` yields all cells as known mines and no
known safes, and the same cells with count `0` yield all cells as known
safes. -/
theorem C2_known_mines_safes_witness :
    (Sentence.mk {((0:ℤ),(0:ℤ)), (0,1), (0,2)} 3).known_mines =
        {((0:ℤ),(0:ℤ)), (0,1), (0,2)} ∧
    (Sentence.mk {((0:ℤ),(0:ℤ)), (0,1), (0,2)} 3).known_safes = ∅ ∧
    (Sentence.mk {((0:ℤ),(0:ℤ)), (0,1), (0,2)} 0).known_safes =
        {((0:ℤ),(0:ℤ)), (0,1), (0,2)} :=
  ⟨(C2_known_mines_safes _).1 (by decide),
   (C2_known_mines_safes _).2.2.2 (by decide),
   (C2_known_mines_safes _).2.2.1 (by decide)⟩

/-- C4: `Sentence.mark_mine` removes a present cell and decrements the count
by exactly 1, and is a no-op on an absent cell. -/
theorem C4_sentence_mark_mine (s : Sentence) (c : Cell) :
    (c ∈ s.cells →
      (s.mark_mine c).cells = s.cells.erase c ∧
      (s.mark_mine c).count = s.count - 1) ∧
    (c ∉ s.cells → s.mark_mine c = s) := by
  constructor <;> intro h <;> simp [Sentence.mark_mine, h]

/-- Witness for C4 at the spec's example: on `{(0,0),(0,1)}` with count 1,
`mark_mine (0,0)` yields cells `{(0,1)}` and count `0`, after which
`known_safes` is `{(0,1)}`. -/
theorem C4_sentence_mark_mine_witness :
    ((Sentence.mk {((0:ℤ),(0:ℤ)), (0,1)} 1).mark_mine (0,0)).cells = {((0:ℤ),(1:ℤ))} ∧
    ((Sentence.mk {((0:ℤ),(0:ℤ)), (0,1)} 1).mark_mine (0,0)).count = 0 ∧
    ((Sentence.mk {((0:ℤ),(0:ℤ)), (0,1)} 1).mark_mine (0,0)).known_safes =
        {((0:ℤ),(1:ℤ))} := by
  have h := (C4_sentence_mark_mine (Sentence.mk {((0:ℤ),(0:ℤ)), (0,1)} 1) (0,0)).1
    (by decide)
  exact ⟨h.1.trans (by decide), h.2.trans (by decide), by decide⟩

/-- C5: `Sentence.mark_safe` removes a present cell and leaves the count
unchanged, and is a no-op on an absent cell. -/
theorem C5_sentence_mark_safe (s : Sentence) (c : Cell) :
    (c ∈ s.cells →
      (s.mark_safe c).cells = s.cells.erase c ∧
      (s.mark_safe c).count = s.count) ∧
    (c ∉ s.cells → s.mark_safe c = s) := by
  constructor <;> intro h <;> simp [Sentence.mark_safe, h]

/-- Witness for C5 at the spec's example: on `{(0,0),(0,1)}` with count 1,
`mark_safe (0,0)` yields cells `{(0,1)}` and count `1`, after which
`known_mines` is `{(0,1)}`. -/
theorem C5_sentence_mark_safe_witness :
    ((Sentence.mk {((0:ℤ),(0:ℤ)), (0,1)} 1).mark_safe (0,0)).cells = {((0:ℤ),(1:ℤ))} ∧
    ((Sentence.mk {((0:ℤ),(0:ℤ)), (0,1)} 1).mark_safe (0,0)).count = 1 ∧
    ((Sentence.mk {((0:ℤ),(0:ℤ)), (0,1)} 1).mark_safe (0,0)).known_mines =
        {((0:ℤ),(1:ℤ))} := by
  have h := (C5_sentence_mark_safe (Sentence.mk {((0:ℤ),(0:ℤ)), (0,1)} 1) (0,0)).1
    (by decide)
  exact ⟨h.1.trans (by decide), h.2.trans (by decide), by decide⟩

/-- After `Sentence.mark_mine`, marking the same cell again is a no-op. -/
theorem Sentence.mark_mine_idem (s : Sentence) (c : Cell) :
    (s.mark_mine c).mark_mine c = s.mark_mine c := by
  unfold Sentence.mark_mine
  by_cases h : c ∈ s.cells <;> simp [h]

/-- C6: the engine-level `mark_mine`, called twice with the same cell,
leaves `mines` and every sentence of `knowledge` (cells and count)
identical to calling it once. -/
theorem C6_engine_mark_mine_idempotent (st : MinesweeperAI) (c : Cell) :
    ((st.mark_mine c).mark_mine c).mines = (st.mark_mine c).mines ∧
    ((st.mark_mine c).mark_mine c).knowledge = (st.mark_mine c).knowledge := by
  refine ⟨?_, ?_⟩
  · simp [MinesweeperAI.mark_mine]
  · simp only [MinesweeperAI.mark_mine, List.map_map]
    exact List.map_congr_left fun s _ => Sentence.mark_mine_idem s c

/-- C10: the saturation loop of `update_knowledge_base` terminates: a pass
that reports a change strictly decreases the total number of
(sentence, cell) memberships across `knowledge` (`totalCells`), because
every cell returned by `known_safes` or `known_mines` is removed from the
sentence that yielded it by the global mark; consequently the loop run
with fuel `totalCells + 1` has already reached its fixed point — giving it
any amount of extra fuel does not change the result. -/
theorem C10_saturation_terminates (st : MinesweeperAI) :
    ((satPass st).2 = true → (satPass st).1.totalCells < st.totalCells) ∧
    ∀ k : ℕ, satLoop st (st.totalCells + 1) = satLoop st (st.totalCells + 1 + k) :=
  ⟨satPass_totalCells_lt st,
   fun k => satLoop_stable (st.totalCells + 1) k st (Nat.lt_succ_self _)⟩

/-- Witness for C10 at a concrete state: one sentence `{(0,0)} = 0`; the
pass reports a change and `totalCells` drops from 1 to 0. -/
theorem C10_saturation_terminates_witness :
    (satPass ⟨1, 1, ∅, ∅, ∅, [⟨{((0:ℤ),(0:ℤ))}, 0⟩]⟩).2 = true ∧
    (satPass ⟨1, 1, ∅, ∅, ∅, [⟨{((0:ℤ),(0:ℤ))}, 0⟩]⟩).1.totalCells <
      MinesweeperAI.totalCells ⟨1, 1, ∅, ∅, ∅, [⟨{((0:ℤ),(0:ℤ))}, 0⟩]⟩ :=
  ⟨by decide, (C10_saturation_terminates _).1 (by decide)⟩

/-- C1: for every pair of structurally distinct sentences `s1, s2` in the
engine's knowledge list with `s1.cells ⊆ s2.cells`, `infer_new_sentences`
derives the candidate sentence with cells `s2.cells \ s1.cells` and count
`s2.count - s1.count`, which therefore appears in the resulting knowledge
list (it is appended unless a structurally equal sentence is already in
`knowledge` or already staged in this pass); the staged list is
duplicate-free and disjoint from the existing knowledge, and the final
knowledge is the old knowledge followed by the staged sentences. -/
theorem C1_subset_resolution (st : MinesweeperAI) (s1 s2 : Sentence)
    (h1 : s1 ∈ st.knowledge) (h2 : s2 ∈ st.knowledge) (hne : s1 ≠ s2)
    (hsub : s1.cells ⊆ s2.cells) :
    (⟨s2.cells \ s1.cells, s2.count - s1.count⟩ : Sentence) ∈
      st.infer_new_sentences.knowledge ∧
    (inferredSentences st.knowledge).Nodup ∧
    (∀ t ∈ inferredSentences st.knowledge, t ∉ st.knowledge) ∧
    st.infer_new_sentences.knowledge =
      st.knowledge ++ inferredSentences st.knowledge := by
  refine ⟨?_, (inferredSentences_inv st.knowledge).1,
    (inferredSentences_inv st.knowledge).2, rfl⟩
  show (⟨s2.cells \ s1.cells, s2.count - s1.count⟩ : Sentence) ∈
    st.knowledge ++ inferredSentences st.knowledge
  rcases foldl_outer_mem st.knowledge s1 s2 hne hsub h2 st.knowledge [] h1 with hk | hm
  · exact List.mem_append_left _ hk
  · exact List.mem_append_right _ hm

/-- Witness for C1 at the spec's example: with knowledge
`[{(0,0),(0,1),(0,2)} = 1, {(0,0),(0,1)} = 1]`, resolution derives and
adds the sentence `{(0,2)} = 0`. -/
theorem C1_subset_resolution_witness :
    (⟨{((0:ℤ),(2:ℤ))}, 0⟩ : Sentence) ∈
      (MinesweeperAI.infer_new_sentences
        ⟨3, 3, ∅, ∅, ∅,
          [⟨{((0:ℤ),(0:ℤ)), (0,1), (0,2)}, 1⟩, ⟨{((0:ℤ),(0:ℤ)), (0,1)}, 1⟩]⟩).knowledge := by
  have h := (C1_subset_resolution
    ⟨3, 3, ∅, ∅, ∅,
      [⟨{((0:ℤ),(0:ℤ)), (0,1), (0,2)}, 1⟩, ⟨{((0:ℤ),(0:ℤ)), (0,1)}, 1⟩]⟩
    ⟨{((0:ℤ),(0:ℤ)), (0,1)}, 1⟩ ⟨{((0:ℤ),(0:ℤ)), (0,1), (0,2)}, 1⟩
    (by decide) (by decide) (by decide) (by decide)).1
  have hc : (⟨{((0:ℤ),(0:ℤ)), (0,1), (0,2)} \ {((0:ℤ),(0:ℤ)), (0,1)}, 1 - 1⟩ : Sentence) =
      (⟨{((0:ℤ),(2:ℤ))}, 0⟩ : Sentence) := by decide
  rwa [hc] at h

/-- C7: on a fresh 3×3 engine, a single observation of `(1,1)` with count 1
leaves `(0,0)` undetermined: it ends up in neither `safes` nor `mines`
(one count-1 sentence over 8 neighbours yields no certainty). -/
theorem C7_single_observation_undetermined :
    ((0:ℤ),(0:ℤ)) ∉ ((MinesweeperAI.init 3 3).add_knowledge (1,1) 1).safes ∧
    ((0:ℤ),(0:ℤ)) ∉ ((MinesweeperAI.init 3 3).add_knowledge (1,1) 1).mines := by
  decide

theorem mem_safeCandidates (st : MinesweeperAI) (x : Cell) :
    x ∈ st.safeCandidates ↔ x ∈ st.safes ∧ x ∉ st.moves_made := by
  unfold MinesweeperAI.safeCandidates
  simp [List.mem_filter, Finset.mem_sort]

theorem mem_gridCells (h w : ℤ) (p : Cell) :
    p ∈ gridCells h w ↔ 0 ≤ p.1 ∧ p.1 < h ∧ 0 ≤ p.2 ∧ p.2 < w := by
  unfold gridCells
  rw [List.mem_flatMap]
  constructor
  · rintro ⟨r, hr, hp⟩
    rw [List.mem_map] at hp
    obtain ⟨c, hc, hpe⟩ := hp
    rw [List.mem_range] at hr hc
    subst hpe
    refine ⟨Int.natCast_nonneg r, ?_, Int.natCast_nonneg c, ?_⟩
    · show (r : ℤ) < h
      omega
    · show (c : ℤ) < w
      omega
  · rintro ⟨h1, h2, h3, h4⟩
    refine ⟨p.1.toNat, ?_, ?_⟩
    · rw [List.mem_range]
      omega
    · rw [List.mem_map]
      refine ⟨p.2.toNat, ?_, ?_⟩
      · rw [List.mem_range]
        omega
      · show ((p.1.toNat : ℤ), (p.2.toNat : ℤ)) = p
        rw [Int.toNat_of_nonneg h1, Int.toNat_of_nonneg h3]

theorem mem_randomCandidates (st : MinesweeperAI) (x : Cell) :
    x ∈ st.randomCandidates ↔
      (0 ≤ x.1 ∧ x.1 < st.height ∧ 0 ≤ x.2 ∧ x.2 < st.width) ∧
        x ∉ st.moves_made ∧ x ∉ st.mines := by
  unfold MinesweeperAI.randomCandidates
  simp [List.mem_filter, mem_gridCells, and_assoc]

/-- C8: `make_safe_move` returns a member of `safes \ moves_made` whenever
that set is non-empty and `None` exactly when it is empty, and
`make_random_move` returns a board cell outside `moves_made` and `mines`
whenever one exists and `None` exactly when none exists; both queries are
total functions (no exception is modelled or needed). -/
theorem C8_move_queries (st : MinesweeperAI) (seed : ℕ) :
    ((st.safes \ st.moves_made).Nonempty →
      ∃ c, (st.make_safe_move seed).1 = some c ∧ c ∈ st.safes \ st.moves_made) ∧
    (st.safes \ st.moves_made = ∅ → (st.make_safe_move seed).1 = none) ∧
    ((∃ p : Cell, 0 ≤ p.1 ∧ p.1 < st.height ∧ 0 ≤ p.2 ∧ p.2 < st.width ∧
        p ∉ st.moves_made ∧ p ∉ st.mines) →
      ∃ c, (st.make_random_move seed).1 = some c ∧ 0 ≤ c.1 ∧ c.1 < st.height ∧
        0 ≤ c.2 ∧ c.2 < st.width ∧ c ∉ st.moves_made ∧ c ∉ st.mines) ∧
    ((¬ ∃ p : Cell, 0 ≤ p.1 ∧ p.1 < st.height ∧ 0 ≤ p.2 ∧ p.2 < st.width ∧
        p ∉ st.moves_made ∧ p ∉ st.mines) →
      (st.make_random_move seed).1 = none) := by
  refine ⟨?_, ?_, ?_, ?_⟩
  · intro hne
    obtain ⟨x, hx⟩ := hne
    rw [Finset.mem_sdiff] at hx
    rcases hpm : st.safeCandidates with _ | ⟨c, rest⟩
    · exfalso
      have hmem : x ∈ st.safeCandidates := (mem_safeCandidates st x).mpr hx
      rw [hpm] at hmem
      cases hmem
    · refine ⟨(c :: rest).get ⟨seed % (c :: rest).length, Nat.mod_lt _ (Nat.succ_pos _)⟩,
        ?_, ?_⟩
      · simp only [MinesweeperAI.make_safe_move, hpm]
      · have hall : ∀ y ∈ c :: rest, y ∈ st.safes \ st.moves_made := by
          intro y hy
          rw [← hpm] at hy
          exact Finset.mem_sdiff.mpr ((mem_safeCandidates st y).mp hy)
        exact hall _ (List.get_mem _ _ _)
  · intro hempty
    have hpm : st.safeCandidates = [] := by
      rw [List.eq_nil_iff_forall_not_mem]
      intro x hx
      have := (mem_safeCandidates st x).mp hx
      have : x ∈ st.safes \ st.moves_made := Finset.mem_sdiff.mpr this
      rw [hempty] at this
      cases this
    simp only [MinesweeperAI.make_safe_move, hpm]
  · intro hex
    obtain ⟨p, hp⟩ := hex
    rcases hpm : st.randomCandidates with _ | ⟨c, rest⟩
    · exfalso
      have hmem : p ∈ st.randomCandidates := (mem_randomCandidates st p).mpr
        ⟨⟨hp.1, hp.2.1, hp.2.2.1, hp.2.2.2.1⟩, hp.2.2.2.2⟩
      rw [hpm] at hmem
      cases hmem
    · refine ⟨(c :: rest).get ⟨seed % (c :: rest).length, Nat.mod_lt _ (Nat.succ_pos _)⟩,
        ?_, ?_⟩
      · simp only [MinesweeperAI.make_random_move, hpm]
      · have hall : ∀ y ∈ c :: rest, 0 ≤ y.1 ∧ y.1 < st.height ∧ 0 ≤ y.2 ∧
            y.2 < st.width ∧ y ∉ st.moves_made ∧ y ∉ st.mines := by
          intro y hy
          rw [← hpm] at hy
          have hym := (mem_randomCandidates st y).mp hy
          exact ⟨hym.1.1, hym.1.2.1, hym.1.2.2.1, hym.1.2.2.2, hym.2.1, hym.2.2⟩
        exact hall _ (List.get_mem _ _ _)
  · intro hnex
    have hpm : st.randomCandidates = [] := by
      rw [List.eq_nil_iff_forall_not_mem]
      intro x hx
      have := (mem_randomCandidates st x).mp hx
      exact hnex ⟨x, this.1.1, this.1.2.1, this.1.2.2.1, this.1.2.2.2, this.2.1, this.2.2⟩
    simp only [MinesweeperAI.make_random_move, hpm]

/-- Witness for C8 on a 1×1 engine whose only cell is known safe and
unplayed: both queries return a move. -/
theorem C8_move_queries_witness :
    (∃ c, ((⟨1, 1, ∅, ∅, {((0:ℤ),(0:ℤ))}, []⟩ : MinesweeperAI).make_safe_move 0).1 = some c ∧
      c ∈ ({((0:ℤ),(0:ℤ))} : Finset Cell) \ (∅ : Finset Cell)) ∧
    (∃ c, ((⟨1, 1, ∅, ∅, {((0:ℤ),(0:ℤ))}, []⟩ : MinesweeperAI).make_random_move 0).1 = some c ∧
      (0:ℤ) ≤ c.1 ∧ c.1 < 1 ∧ (0:ℤ) ≤ c.2 ∧ c.2 < 1 ∧
      c ∉ (∅ : Finset Cell) ∧ c ∉ (∅ : Finset Cell)) :=
  ⟨(C8_move_queries ⟨1, 1, ∅, ∅, {((0:ℤ),(0:ℤ))}, []⟩ 0).1 ⟨(0,0), by decide⟩,
   (C8_move_queries ⟨1, 1, ∅, ∅, {((0:ℤ),(0:ℤ))}, []⟩ 0).2.2.1 ⟨(0,0), by decide⟩⟩

/-- C9: the move queries are read-only: they return the engine state
unchanged (every field, including the sentences of `knowledge`). -/
theorem C9_queries_read_only (st : MinesweeperAI) (seed : ℕ) :
    (st.make_safe_move seed).2 = st ∧ (st.make_random_move seed).2 = st :=
  ⟨rfl, rfl⟩

/- ### Monotone growth of the certainty sets -/

theorem grow_markSafeSet (st : MinesweeperAI) (S : Finset Cell) :
    st.safes ⊆ (st.markSafeSet S).safes ∧ st.mines ⊆ (st.markSafeSet S).mines :=
  ⟨Finset.subset_union_left, Finset.Subset.refl _⟩

theorem grow_markMineSet (st : MinesweeperAI) (S : Finset Cell) :
    st.safes ⊆ (st.markMineSet S).safes ∧ st.mines ⊆ (st.markMineSet S).mines :=
  ⟨Finset.Subset.refl _, Finset.subset_union_left⟩

theorem grow_satPassAux :
    ∀ (fuel : ℕ) (st : MinesweeperAI) (changed : Bool) (i : ℕ),
      st.safes ⊆ (satPassAux st changed i fuel).1.safes ∧
      st.mines ⊆ (satPassAux st changed i fuel).1.mines := by
  intro fuel
  induction fuel with
  | zero => exact fun st changed i => ⟨Finset.Subset.refl _, Finset.Subset.refl _⟩
  | succ fuel ih =>
    intro st changed i
    rcases hget : st.knowledge.get? i with _ | s
    · simpa only [satPassAux, hget] using ih st changed (i + 1)
    · by_cases hsf : s.known_safes = ∅ <;> by_cases hmn : s.known_mines = ∅ <;>
        simp only [satPassAux, hget, hsf, hmn, ite_true, ite_false,
          not_true_eq_false, not_false_eq_true]
      · exact ih st changed (i + 1)
      · exact ⟨Finset.Subset.trans (grow_markMineSet st _).1 (ih _ true (i + 1)).1,
          Finset.Subset.trans (grow_markMineSet st _).2 (ih _ true (i + 1)).2⟩
      · exact ⟨Finset.Subset.trans (grow_markSafeSet st _).1 (ih _ true (i + 1)).1,
          Finset.Subset.trans (grow_markSafeSet st _).2 (ih _ true (i + 1)).2⟩
      · exact ⟨Finset.Subset.trans (grow_markSafeSet st s.known_safes).1
            (Finset.Subset.trans
              (grow_markMineSet (st.markSafeSet s.known_safes) s.known_mines).1
              (ih _ true (i + 1)).1),
          Finset.Subset.trans (grow_markSafeSet st s.known_safes).2
            (Finset.Subset.trans
              (grow_markMineSet (st.markSafeSet s.known_safes) s.known_mines).2
              (ih _ true (i + 1)).2)⟩

theorem grow_satLoop :
    ∀ (fuel : ℕ) (st : MinesweeperAI),
      st.safes ⊆ (satLoop st fuel).safes ∧ st.mines ⊆ (satLoop st fuel).mines := by
  intro fuel
  induction fuel with
  | zero => exact fun st => ⟨Finset.Subset.refl _, Finset.Subset.refl _⟩
  | succ fuel ih =>
    intro st
    rcases hp : (satPass st).2 with _ | _
    · simp only [satLoop, hp, if_false]
      exact grow_satPassAux st.knowledge.length st false 0
    · simp only [satLoop, hp, if_true]
      exact ⟨Finset.Subset.trans (grow_satPassAux st.knowledge.length st false 0).1
          (ih (satPass st).1).1,
        Finset.Subset.trans (grow_satPassAux st.knowledge.length st false 0).2
          (ih (satPass st).1).2⟩

theorem grow_update_knowledge_base (st : MinesweeperAI) :
    st.safes ⊆ st.update_knowledge_base.safes ∧
    st.mines ⊆ st.update_knowledge_base.mines :=
  ⟨(grow_satLoop (st.totalCells + 1) st).1, (grow_satLoop (st.totalCells + 1) st).2⟩

theorem grow_chain (u : MinesweeperAI) {A B : Finset Cell}
    (h1 : A ⊆ u.safes) (h2 : B ⊆ u.mines) :
    A ⊆ u.update_knowledge_base.infer_new_sentences.safes ∧
    B ⊆ u.update_knowledge_base.infer_new_sentences.mines :=
  ⟨Finset.Subset.trans h1 (grow_update_knowledge_base u).1,
    Finset.Subset.trans h2 (grow_update_knowledge_base u).2⟩

theorem grow_add_knowledge (st : MinesweeperAI) (c : Cell) (n : ℤ) :
    st.safes ⊆ (st.add_knowledge c n).safes ∧
    st.mines ⊆ (st.add_knowledge c n).mines := by
  simp only [MinesweeperAI.add_knowledge]
  exact grow_chain _ (Finset.subset_insert _ _) (Finset.Subset.refl _)

/- ### Soundness with respect to a fixed mine assignment -/

theorem SentTrue_sdiff_safe {M S : Finset Cell} {s : Sentence}
    (hS : ∀ c ∈ S, c ∉ M) (h : SentTrue M s) :
    SentTrue M (⟨s.cells \ S, s.count⟩ : Sentence) := by
  unfold SentTrue at *
  have hEq : (s.cells \ S) ∩ M = s.cells ∩ M := by
    ext x
    simp only [Finset.mem_inter, Finset.mem_sdiff]
    constructor
    · rintro ⟨⟨h1, _⟩, h3⟩
      exact ⟨h1, h3⟩
    · rintro ⟨h1, h2⟩
      exact ⟨⟨h1, fun hxS => hS x hxS h2⟩, h2⟩
  simpa [hEq] using h

theorem SentTrue_sdiff_mine {M S : Finset Cell} {s : Sentence}
    (hS : S ⊆ M) (h : SentTrue M s) :
    SentTrue M (⟨s.cells \ S, s.count - ((s.cells ∩ S).card : ℤ)⟩ : Sentence) := by
  unfold SentTrue at *
  have hEq : (s.cells \ S) ∩ M = (s.cells ∩ M) \ (s.cells ∩ S) := by
    ext x
    simp only [Finset.mem_inter, Finset.mem_sdiff, not_and]
    constructor
    · rintro ⟨⟨h1, h2⟩, h3⟩
      exact ⟨⟨h1, h3⟩, fun _ => h2⟩
    · rintro ⟨⟨h1, h2⟩, h3⟩
      exact ⟨⟨h1, h3 h1⟩, h2⟩
  have hsub : s.cells ∩ S ⊆ s.cells ∩ M :=
    Finset.inter_subset_inter (Finset.Subset.refl _) hS
  show s.count - ((s.cells ∩ S).card : ℤ) = (((s.cells \ S) ∩ M).card : ℤ)
  rw [hEq, Finset.card_sdiff hsub, Nat.cast_sub (Finset.card_le_card hsub), ← h]

theorem known_safes_not_in_M {M : Finset Cell} {s : Sentence} (h : SentTrue M s) :
    ∀ c ∈ s.known_safes, c ∉ M := by
  unfold SentTrue at h
  unfold Sentence.known_safes
  split
  · next h0 =>
    rw [h0] at h
    have hcard : (s.cells ∩ M).card = 0 := by
      have := h.symm
      exact_mod_cast this
    have hempty : s.cells ∩ M = ∅ := Finset.card_eq_zero.mp hcard
    intro c hc hcM
    have : c ∈ s.cells ∩ M := Finset.mem_inter.mpr ⟨hc, hcM⟩
    rw [hempty] at this
    cases this
  · intro c hc
    cases hc

theorem known_mines_subset_M {M : Finset Cell} {s : Sentence} (h : SentTrue M s) :
    s.known_mines ⊆ M := by
  unfold SentTrue at h
  unfold Sentence.known_mines
  split
  · next h0 =>
    rw [h0] at h
    have hcard : (s.cells ∩ M).card = s.cells.card := by exact_mod_cast h.symm
    have hEq : s.cells ∩ M = s.cells :=
      Finset.eq_of_subset_of_card_le Finset.inter_subset_left (le_of_eq hcard.symm)
    intro c hc
    have : c ∈ s.cells ∩ M := hEq.symm ▸ hc
    exact (Finset.mem_inter.mp this).2
  · exact Finset.empty_subset _

theorem Sound_markSafeSet {M : Finset Cell} {st : MinesweeperAI} {S : Finset Cell}
    (hst : Sound M st) (hS : ∀ c ∈ S, c ∉ M) : Sound M (st.markSafeSet S) := by
  obtain ⟨hm, hs, hmm, hk⟩ := hst
  refine ⟨hm, ?_, hmm, ?_⟩
  · intro c hc
    rcases Finset.mem_union.mp hc with hc | hc
    · exact hs c hc
    · exact hS c hc
  · intro s hsmem
    obtain ⟨t, ht, rfl⟩ := List.mem_map.mp hsmem
    exact SentTrue_sdiff_safe hS (hk t ht)

theorem Sound_markMineSet {M : Finset Cell} {st : MinesweeperAI} {S : Finset Cell}
    (hst : Sound M st) (hS : S ⊆ M) : Sound M (st.markMineSet S) := by
  obtain ⟨hm, hs, hmm, hk⟩ := hst
  refine ⟨?_, hs, hmm, ?_⟩
  · intro c hc
    rcases Finset.mem_union.mp hc with hc | hc
    · exact hm hc
    · exact hS hc
  · intro s hsmem
    obtain ⟨t, ht, rfl⟩ := List.mem_map.mp hsmem
    exact SentTrue_sdiff_mine hS (hk t ht)

theorem Sound_satPassAux {M : Finset Cell} :
    ∀ (fuel : ℕ) (st : MinesweeperAI) (changed : Bool) (i : ℕ),
      Sound M st → Sound M (satPassAux st changed i fuel).1 := by
  intro fuel
  induction fuel with
  | zero => exact fun st changed i h => h
  | succ fuel ih =>
    intro st changed i hst
    rcases hget : st.knowledge.get? i with _ | s
    · simpa only [satPassAux, hget] using ih st changed (i + 1) hst
    · have hs : s ∈ st.knowledge := List.get?_mem hget
      have htrue : SentTrue M s := hst.2.2.2 s hs
      by_cases hsf : s.known_safes = ∅ <;> by_cases hmn : s.known_mines = ∅ <;>
        simp only [satPassAux, hget, hsf, hmn, ite_true, ite_false,
          not_true_eq_false, not_false_eq_true]
      · exact ih st changed (i + 1) hst
      · exact ih _ true (i + 1)
          (Sound_markMineSet hst (known_mines_subset_M htrue))
      · exact ih _ true (i + 1)
          (Sound_markSafeSet hst (known_safes_not_in_M htrue))
      · exact ih _ true (i + 1)
          (Sound_markMineSet
            (Sound_markSafeSet hst (known_safes_not_in_M htrue))
            (known_mines_subset_M htrue))

theorem Sound_satLoop {M : Finset Cell} :
    ∀ (fuel : ℕ) (st : MinesweeperAI), Sound M st → Sound M (satLoop st fuel) := by
  intro fuel
  induction fuel with
  | zero => exact fun st h => h
  | succ fuel ih =>
    intro st hst
    rcases hp : (satPass st).2 with _ | _
    · simp only [satLoop, hp, if_false]
      exact Sound_satPassAux st.knowledge.length st false 0 hst
    · simp only [satLoop, hp, if_true]
      exact ih _ (Sound_satPassAux st.knowledge.length st false 0 hst)

theorem Sound_update_knowledge_base {M : Finset Cell} {st : MinesweeperAI}
    (hst : Sound M st) : Sound M st.update_knowledge_base := by
  have h1 : Sound M (satLoop st (st.totalCells + 1)) := Sound_satLoop _ st hst
  obtain ⟨hm, hs, hmm, hk⟩ := h1
  exact ⟨hm, hs, hmm, fun s hsmem => hk s (List.mem_of_mem_filter hsmem)⟩

theorem SentTrue_diff {M : Finset Cell} {s1 s2 : Sentence}
    (h1 : SentTrue M s1) (h2 : SentTrue M s2) (hsub : s1.cells ⊆ s2.cells) :
    SentTrue M (⟨s2.cells \ s1.cells, s2.count - s1.count⟩ : Sentence) := by
  unfold SentTrue at *
  have hEq : (s2.cells \ s1.cells) ∩ M = (s2.cells ∩ M) \ (s1.cells ∩ M) := by
    ext x
    simp only [Finset.mem_inter, Finset.mem_sdiff, not_and]
    constructor
    · rintro ⟨⟨ha, hb⟩, hc⟩
      exact ⟨⟨ha, hc⟩, fun hx1 => absurd hx1 hb⟩
    · rintro ⟨⟨ha, hc⟩, hb⟩
      exact ⟨⟨ha, fun hxs1 => hb hxs1 hc⟩, hc⟩
  have hsub2 : s1.cells ∩ M ⊆ s2.cells ∩ M :=
    Finset.inter_subset_inter hsub (Finset.Subset.refl _)
  show s2.count - s1.count = (((s2.cells \ s1.cells) ∩ M).card : ℤ)
  rw [hEq, Finset.card_sdiff hsub2, Nat.cast_sub (Finset.card_le_card hsub2), ← h1, ← h2]

theorem inferStep_true {M : Finset Cell} (kb : List Sentence) (s1 s2 : Sentence)
    (inf : List Sentence) (h1 : SentTrue M s1) (h2 : SentTrue M s2)
    (hinf : ∀ t ∈ inf, SentTrue M t) :
    ∀ t ∈ inferStep kb s1 s2 inf, SentTrue M t := by
  unfold inferStep
  split
  · next hcond =>
    split
    · intro t ht
      rcases List.mem_append.mp ht with ht | ht
      · exact hinf t ht
      · rw [List.mem_singleton] at ht
        subst ht
        exact SentTrue_diff h1 h2 hcond.2
    · exact hinf
  · exact hinf

theorem foldl_inferStep_true {M : Finset Cell} (kb : List Sentence) (s1 : Sentence)
    (h1 : SentTrue M s1) :
    ∀ (l inf : List Sentence), (∀ x ∈ l, SentTrue M x) → (∀ t ∈ inf, SentTrue M t) →
      ∀ t ∈ l.foldl (fun acc s2 => inferStep kb s1 s2 acc) inf, SentTrue M t := by
  intro l
  induction l with
  | nil => exact fun inf _ hinf => hinf
  | cons a l ih =>
    intro inf hl hinf
    exact ih _ (fun x hx => hl x (List.mem_cons_of_mem a hx))
      (inferStep_true kb s1 a inf h1 (hl a (List.mem_cons_self a l)) hinf)

theorem inferredSentences_true {M : Finset Cell} (kb : List Sentence)
    (hkb : ∀ x ∈ kb, SentTrue M x) :
    ∀ t ∈ inferredSentences kb, SentTrue M t := by
  unfold inferredSentences
  have : ∀ (l inf : List Sentence), (∀ x ∈ l, SentTrue M x) → (∀ t ∈ inf, SentTrue M t) →
      ∀ t ∈ l.foldl (fun inf s1 => kb.foldl (fun inf s2 => inferStep kb s1 s2 inf) inf) inf,
        SentTrue M t := by
    intro l
    induction l with
    | nil => exact fun inf _ hinf => hinf
    | cons a l ih =>
      intro inf hl hinf
      exact ih _ (fun x hx => hl x (List.mem_cons_of_mem a hx))
        (foldl_inferStep_true kb a (hl a (List.mem_cons_self a l)) kb inf hkb hinf)
  exact this kb [] hkb (fun t ht => absurd ht (List.not_mem_nil t))

theorem Sound_infer_new_sentences {M : Finset Cell} {st : MinesweeperAI}
    (hst : Sound M st) : Sound M st.infer_new_sentences := by
  obtain ⟨hm, hs, hmm, hk⟩ := hst
  refine ⟨hm, hs, hmm, ?_⟩
  intro s hsmem
  rcases List.mem_append.mp hsmem with hsmem | hsmem
  · exact hk s hsmem
  · exact inferredSentences_true st.knowledge hk s hsmem

theorem find_cell_neighbors_inter (st : MinesweeperAI) (c : Cell) (M : Finset Cell)
    (hmm : ∀ y ∈ st.moves_made, y ∉ M) :
    (st.find_cell_neighbors c).toFinset ∩ M = inBoundsNbrs st.height st.width c ∩ M := by
  ext x
  simp only [Finset.mem_inter, List.mem_toFinset, MinesweeperAI.find_cell_neighbors,
    inBoundsNbrs, List.mem_filter, decide_eq_true_eq]
  constructor
  · rintro ⟨⟨hcand, _, hb⟩, hM⟩
    exact ⟨⟨hcand, hb⟩, hM⟩
  · rintro ⟨⟨hcand, hb⟩, hM⟩
    exact ⟨⟨hcand, fun hmem => hmm x hmem hM, hb⟩, hM⟩

theorem Sound_add_knowledge {M : Finset Cell} {st : MinesweeperAI} {c : Cell} {n : ℤ}
    (hst : Sound M st) (hc : c ∉ M)
    (hn : n = ((inBoundsNbrs st.height st.width c ∩ M).card : ℤ)) :
    Sound M (st.add_knowledge c n) := by
  have h1 : Sound M ({ st with moves_made := insert c st.moves_made } : MinesweeperAI) := by
    obtain ⟨hm, hs, hmm, hk⟩ := hst
    refine ⟨hm, hs, ?_, hk⟩
    intro y hy
    rcases Finset.mem_insert.mp hy with rfl | hy
    · exact hc
    · exact hmm y hy
  have h2 : Sound M
      (({ st with moves_made := insert c st.moves_made } : MinesweeperAI).mark_safe c) := by
    rw [MinesweeperAI.mark_safe_eq_markSafeSet]
    refine Sound_markSafeSet h1 ?_
    intro y hy
    rw [Finset.mem_singleton] at hy
    subst hy
    exact hc
  have h3 : Sound M
      { (({ st with moves_made := insert c st.moves_made } : MinesweeperAI).mark_safe c) with
        knowledge :=
          (({ st with moves_made := insert c st.moves_made } :
              MinesweeperAI).mark_safe c).knowledge ++
            [(⟨((({ st with moves_made := insert c st.moves_made } :
                MinesweeperAI).mark_safe c).find_cell_neighbors c).toFinset, n⟩ : Sentence)] } := by
    obtain ⟨hm, hs, hmm, hk⟩ := h2
    refine ⟨hm, hs, hmm, ?_⟩
    intro s hsmem
    rcases List.mem_append.mp hsmem with hsmem | hsmem
    · exact hk s hsmem
    · rw [List.mem_singleton] at hsmem
      subst hsmem
      unfold SentTrue
      show n = _
      rw [find_cell_neighbors_inter _ c M hmm]
      exact hn
  exact Sound_infer_new_sentences (Sound_update_knowledge_base h3)

theorem Sound_init (h w : ℤ) (M : Finset Cell) : Sound M (MinesweeperAI.init h w) :=
  ⟨Finset.empty_subset _,
   fun c hc => absurd hc (Finset.not_mem_empty c),
   fun c hc => absurd hc (Finset.not_mem_empty c),
   fun s hs => absurd hs (List.not_mem_nil s)⟩

theorem Sound_disjoint {M : Finset Cell} {st : MinesweeperAI} (h : Sound M st) :
    Disjoint st.safes st.mines := by
  rw [Finset.disjoint_left]
  intro a ha ha2
  exact h.2.1 a ha (h.1 ha2)

theorem runAI_append (st : MinesweeperAI) (l1 l2 : List (Cell × ℤ)) :
    runAI st (l1 ++ l2) = runAI (runAI st l1) l2 := by
  induction l1 generalizing st with
  | nil => rfl
  | cons p l1 ih =>
    rcases p with ⟨c, n⟩
    show runAI (st.add_knowledge c n) (l1 ++ l2) = _
    exact ih (st.add_knowledge c n)

theorem Sound_runAI_take {M : Finset Cell} :
    ∀ (obs : List (Cell × ℤ)) (st : MinesweeperAI), Sound M st → ConsSeq M st obs →
      ∀ i : ℕ, Sound M (runAI st (obs.take i)) := by
  intro obs
  induction obs with
  | nil =>
    intro st h _ i
    simpa [runAI] using h
  | cons p rest ih =>
    intro st h hcons i
    rcases p with ⟨c, n⟩
    obtain ⟨hc1, hc2, hc3⟩ : c ∉ M ∧
        n = ((inBoundsNbrs st.height st.width c ∩ M).card : ℤ) ∧
        ConsSeq M (st.add_knowledge c n) rest := hcons
    cases i with
    | zero => simpa [runAI] using h
    | succ i =>
      rw [List.take_succ_cons]
      show Sound M (runAI (st.add_knowledge c n) (rest.take i))
      exact ih (st.add_knowledge c n) (Sound_add_knowledge h hc1 hc2) hc3 i

/-- C3 counterexample: the claim's disjointness part fails for an
inconsistent observation sequence.  On a 1×2 board, observing `(0,0)` with
count 1 and then again with count 0 puts `(0,1)` into `mines` and then into
`safes`: after the two `add_knowledge` calls the two sets intersect. -/
theorem C3_disjointness_counterexample :
    ((0:ℤ),(1:ℤ)) ∈ (runAI (MinesweeperAI.init 1 2) [((0,0),1), ((0,0),0)]).safes ∧
    ((0:ℤ),(1:ℤ)) ∈ (runAI (MinesweeperAI.init 1 2) [((0,0),1), ((0,0),0)]).mines ∧
    (runAI (MinesweeperAI.init 1 2) [((0,0),1), ((0,0),0)]).safes ∩
      (runAI (MinesweeperAI.init 1 2) [((0,0),1), ((0,0),0)]).mines ≠ ∅ := by
  decide

/-- C3 (amended): for every sequence of `add_knowledge` calls from a fresh
engine, `safes` and `mines` only grow between consecutive intermediate
states; and provided the observations are consistent with a fixed mine
assignment `M` (each observed cell not in `M`, each count the true number
of in-bounds neighbours in `M`), `safes` and `mines` are disjoint at every
intermediate state.  (Unconditional disjointness is refuted by
`C3_disjointness_counterexample`.) -/
theorem C3_growth_and_disjoint_when_consistent (h w : ℤ) (obs : List (Cell × ℤ)) :
    (∀ i : ℕ,
      (runAI (MinesweeperAI.init h w) (obs.take i)).safes ⊆
        (runAI (MinesweeperAI.init h w) (obs.take (i + 1))).safes ∧
      (runAI (MinesweeperAI.init h w) (obs.take i)).mines ⊆
        (runAI (MinesweeperAI.init h w) (obs.take (i + 1))).mines) ∧
    ∀ M : Finset Cell, ConsSeq M (MinesweeperAI.init h w) obs →
      ∀ i : ℕ,
        Disjoint (runAI (MinesweeperAI.init h w) (obs.take i)).safes
          (runAI (MinesweeperAI.init h w) (obs.take i)).mines := by
  constructor
  · intro i
    rw [List.take_succ, runAI_append]
    rcases hget : obs[i]? with _ | p
    · simp only [hget, Option.toList]
      exact ⟨Finset.Subset.refl _, Finset.Subset.refl _⟩
    · rcases p with ⟨c, n⟩
      simp only [hget, Option.toList]
      exact ⟨(grow_add_knowledge _ c n).1, (grow_add_knowledge _ c n).2⟩
  · intro M hcons i
    exact Sound_disjoint (Sound_runAI_take obs _ (Sound_init h w M) hcons i)

/-- Witness for C3 at a concrete consistent run: 1×2 board, mine at
`(0,1)`, one observation of `(0,0)` with count 1. -/
theorem C3_growth_and_disjoint_when_consistent_witness :
    ((runAI (MinesweeperAI.init 1 2) (([((0,0),1)] : List (Cell × ℤ)).take 0)).safes ⊆
      (runAI (MinesweeperAI.init 1 2) (([((0,0),1)] : List (Cell × ℤ)).take 1)).safes) ∧
    Disjoint
      (runAI (MinesweeperAI.init 1 2) (([((0,0),1)] : List (Cell × ℤ)).take 1)).safes
      (runAI (MinesweeperAI.init 1 2) (([((0,0),1)] : List (Cell × ℤ)).take 1)).mines :=
  ⟨((C3_growth_and_disjoint_when_consistent 1 2 [((0,0),1)]).1 0).1,
   (C3_growth_and_disjoint_when_consistent 1 2 [((0,0),1)]).2 {((0:ℤ),(1:ℤ))}
     ⟨by decide, by decide, trivial⟩ 1⟩
